import Mathlib

/-!
# Verification of `notify.py` (nqngo/Notify)

A shallow embedding of the logic of `src/notify.py` and proofs of the
specification's claims about it.  Python strings are `String`/`List Char`,
Python `int` values are `Int`, Python exceptions are modelled with `Except`,
and Python `set` results are taken to `Finset` at the observation boundary
(order and multiplicity of set elements are not observable in the source).
-/

namespace Notify

/-! ## Python primitives

Helpers modelling the pieces of the Python standard library the source
leans on: `int(...)`, `str.split(sep)`, `re.split(r",\s*(?![^\[\]]*\])", s)`
and `re.search(r"(.*?)\[(.*?)\](.*)", s)`. -/

/-- Errors a run of the parsing code can produce.  `valueError s` models the
`ValueError` that Python's `int` raises on a non-numeric string `s`;
`fuelExhausted` is the artefact of bounding the recursion of `parse_nodes`
by an explicit fuel (shown sufficient below, so it never occurs). -/
inductive PyErr where
  | valueError (s : String)
  | fuelExhausted
deriving DecidableEq, Repr

deriving instance DecidableEq for Except

/-- ASCII whitespace as matched by Python's `\s` and stripped by `int`. -/
def isPySpace (c : Char) : Bool :=
  c == ' ' || c == '\t' || c == '\n' || c == '\r' || c == '\x0b' || c == '\x0c'

/-- Value of a non-empty all-digit string, `none` otherwise. -/
def digitsVal (ds : List Char) : Option Nat :=
  if ds.isEmpty then none
  else if ds.all (fun c => c.isDigit) then
    some (ds.foldl (fun a c => a * 10 + (c.toNat - '0'.toNat)) 0)
  else none

/-- Python `int(s)` on a string: surrounding whitespace is ignored, an
optional single sign is allowed, the rest must be digits (PEP 515 digit
underscores are not modelled — no input of interest contains them).
Returns `none` where Python raises `ValueError`. -/
def pyInt (s : List Char) : Option Int :=
  let t := ((s.dropWhile isPySpace).reverse.dropWhile isPySpace).reverse
  match t with
  | '+' :: ds => (digitsVal ds).map Int.ofNat
  | '-' :: ds => (digitsVal ds).map (fun n => -(n : Int))
  | ds => (digitsVal ds).map Int.ofNat

/-- Python `range(lo, hi)`: the integers `lo, lo+1, ..., hi-1`. -/
def pyRange (lo hi : Int) : List Int :=
  (List.range (hi - lo).toNat).map (fun k => lo + k)

/-- Python `s.split(sep)` for a one-character separator `sep`:
every occurrence splits, adjacent separators produce empty pieces,
and the result is never empty. -/
def splitOnChar (sep : Char) : List Char → List (List Char)
  | [] => [[]]
  | c :: cs =>
    if c = sep then [] :: splitOnChar sep cs
    else
      match splitOnChar sep cs with
      | [] => [[c]]
      | p :: ps => (c :: p) :: ps

/-- The lookahead body `[^\[\]]*\]` of the comma-splitting regex: does the
text reach a `]` before any `[`?  (True exactly when the regex matches at
the start of the text.) -/
def closesBracket : List Char → Bool
  | [] => false
  | c :: cs => if c = ']' then true else if c = '[' then false else closesBracket cs

/-- The splitting skeleton of `re.split(r",\s*(?![^\[\]]*\])", nodes)`:
split at every comma that is *not* followed by a bracket-free run ending in
`]` (such a comma sits inside a `[...]` group and is kept).  The `\s*` the
regex swallows after each splitting comma is removed afterwards by
`reSplitCommas`; whitespace does not change the lookahead's verdict since
whitespace characters are neither `[` nor `]`. -/
def splitCommasRaw : List Char → List (List Char)
  | [] => [[]]
  | c :: cs =>
    if c = ',' ∧ closesBracket cs = false then [] :: splitCommasRaw cs
    else
      match splitCommasRaw cs with
      | [] => [[c]]
      | p :: ps => (c :: p) :: ps

/-- Leading whitespace removal (the `\s*` consumed as part of the
separator). -/
def dropPySpaces (l : List Char) : List Char := l.dropWhile isPySpace

/-- `re.split(r",\s*(?![^\[\]]*\])", s)`: split on top-level commas; every
piece after the first had its separator's trailing whitespace consumed. -/
def reSplitCommas (s : String) : List String :=
  match splitCommasRaw s.data with
  | [] => []
  | p :: ps => String.mk p :: ps.map (fun q => String.mk (dropPySpaces q))

/-- First occurrence of `sep`: `breakOn sep l = some (a, b)` iff
`l = a ++ sep :: b` with `sep ∉ a`. -/
def breakOn (sep : Char) : List Char → Option (List Char × List Char)
  | [] => none
  | c :: cs =>
    if c = sep then some ([], cs)
    else (breakOn sep cs).map (fun p => (c :: p.1, p.2))

/-- `re.search(r"(.*?)\[(.*?)\](.*)", line)` restricted to a single line
(no newline in `line`): the lazy groups take everything before the first
`[`, then everything before the first `]` after it; the greedy tail takes
the rest of the line.  If the first `[` of the line is not followed by a
`]` no later `[` can be either, so the line has no match. -/
def lineMatch (line : List Char) : Option (List Char × List Char × List Char) :=
  (breakOn '[' line).bind (fun pr =>
    (breakOn ']' pr.2).map (fun ms => (pr.1, ms.1, ms.2)))

/-- `re.search(r"(.*?)\[(.*?)\](.*)", s)`.  Since `.` does not match a
newline, a match is always confined to one line and `re.search` returns the
match of the earliest line that has one. -/
def searchBracket (s : String) : Option (String × String × String) :=
  ((splitOnChar '\n' s.data).findSome? lineMatch).map
    (fun t => (String.mk t.1, String.mk t.2.1, String.mk t.2.2))

/-! ## The host-range expander (`parse_dash` / `parse_nodes`) -/

/-- `parse_dash` of `notify.py`:

    def parse_dash(range_str):
      hosts = range_str.split("-")
      return range(int(hosts[0]), int(hosts[1]) + 1) if len(hosts) > 1 else [range_str]

A piece with a dash becomes the inclusive integer range between its first
two components (numeric semantics, components past the second ignored,
`ValueError` if a bound is not numeric); a piece without a dash is returned
verbatim, as the untouched string.  The `range` of ints is rendered to
strings here because the only consumer formats its elements with `"%s"`. -/
def parse_dash (range_str : String) : Except PyErr (List String) :=
  match splitOnChar '-' range_str.data with
  | a :: b :: _ =>
    match pyInt a, pyInt b with
    | some lo, some hi => .ok ((pyRange lo (hi + 1)).map (fun n => toString n))
    | none, _ => .error (.valueError (String.mk a))
    | _, none => .error (.valueError (String.mk b))
  | _ => .ok [range_str]

/-- The body of `parse_nodes` of `notify.py`, with the recursion bounded by
fuel (each recursive call is on a strictly shorter string, so
`length + 1` fuel always suffices — `parseNodesF_eq_parse_nodes` below):

    def parse_nodes(nodes):
      nodes = re.split(r",\s*(?![^\[\]]*\])", nodes)
      if len(nodes) > 1:
        nodes = set(host for hosts in nodes for host in parse_nodes(hosts))
      else:
        match = re.search(r"(.*?)\[(.*?)\](.*)", nodes[0])
        if match:
          host_ranges = [host for hosts in parse_nodes(match.group(2))
                              for host in parse_dash(hosts)]
          nodes = set("%s%s%s" % (match.group(1), host, match.group(3)) for host in host_ranges)
      return nodes

The produced collection is observed as a set (`expand` below); here it is
kept as the list of produced hostnames in first-production order. -/
def parseNodesF : Nat → String → Except PyErr (List String)
  | 0, _ => .error .fuelExhausted
  | fuel + 1, nodes =>
    match reSplitCommas nodes with
    | p :: q :: rest =>
      ((p :: q :: rest).mapM (parseNodesF fuel)).map List.flatten
    | [p] =>
      match searchBracket p with
      | some (pre, mid, suf) =>
        match parseNodesF fuel mid with
        | .error e => .error e
        | .ok inner =>
          match inner.mapM parse_dash with
          | .error e => .error e
          | .ok ranges => .ok (ranges.flatten.map (fun h => pre ++ h ++ suf))
      | none => .ok [p]
    | [] => .ok []

/-- `parse_nodes` of `notify.py` (fuel instantiated sufficiently). -/
def parse_nodes (nodes : String) : Except PyErr (List String) :=
  parseNodesF (nodes.length + 1) nodes

/-- The expansion as a set of hostnames — the `set<string>` contract of the
spec (`parse_nodes` wraps its result in `set(...)` in every branch that
produced more than a bare literal). -/
def expand (nodes : String) : Except PyErr (Finset String) :=
  (parse_nodes nodes).map List.toFinset

/-! ## `get_session` -/

/-- The exception a run of `get_session` can actually surface.  The source's
`raise AuthenticationError(...)` names a class that is defined nowhere in
the module and in none of its imports, so executing that statement makes
Python raise `NameError: name 'AuthenticationError' is not defined`;
`nameError n` models exactly that, carrying the undefined name `n`. -/
inductive PyRaise where
  | nameError (undefinedName : String)
deriving DecidableEq, Repr

/-- The process environment as far as `get_session` reads it:
`os.environ.get` yields `none` for an unset variable. -/
structure Env where
  OS_AUTH_URL : Option String
  OS_USERNAME : Option String
  OS_PASSWORD : Option String
  OS_TENANT_NAME : Option String
deriving DecidableEq, Repr

/-- Python truthiness of an `os.environ.get` result: `not x` is true for
`None` and for the empty string. -/
def pyTruthy (o : Option String) : Bool :=
  match o with
  | none => false
  | some s => !s.isEmpty

/-- The keystone auth session `get_session` builds on success (the
collaborator object; constructing it contacts no external service). -/
structure Session where
  auth_url : String
  username : String
  password : String
  project_name : String
  user_domain_name : String
  project_domain_name : String
deriving DecidableEq, Repr

/-- `get_session` of `notify.py`: read the four credential variables, and if
any is unset or empty, fail before constructing the auth plugin — by
executing `raise AuthenticationError(...)`, whose class name is undefined,
hence a `NameError`.  Otherwise build the session from the credentials with
both domain names fixed to `"Default"`. -/
def get_session (env : Env) : Except PyRaise Session :=
  if !pyTruthy env.OS_AUTH_URL || !pyTruthy env.OS_USERNAME
      || !pyTruthy env.OS_PASSWORD || !pyTruthy env.OS_TENANT_NAME then
    .error (.nameError "AuthenticationError")
  else
    .ok { auth_url := env.OS_AUTH_URL.getD ""
          username := env.OS_USERNAME.getD ""
          password := env.OS_PASSWORD.getD ""
          project_name := env.OS_TENANT_NAME.getD ""
          user_domain_name := "Default"
          project_domain_name := "Default" }

/-! ## Aggregates and `get_hosts_by_zones` -/

/-- First-match association-list lookup, modelling a Python `dict`'s
`k in d` / `d[k]` (keys are unique in every dict/assoc-list built here). -/
def assocLookup {α : Type} : List (String × α) → String → Option α
  | [], _ => none
  | (k, v) :: rest, t => if k = t then some v else assocLookup rest t

/-- A nova host aggregate as `get_hosts_by_zones` reads it. -/
structure Aggregate where
  name : String
  hosts : List String
  metadata : List (String × String)

/-- `get_hosts_by_zones` of `notify.py`, with the compute provider's
`nova.aggregates.list()` passed in as the list `aggregates`:

    return set(host for aggregate in nova.aggregates.list()
                    for host in aggregate.hosts
                    if u"availability_zone" in aggregate.metadata and
                       aggregate.metadata[u"availability_zone"] in zones)
-/
def get_hosts_by_zones (aggregates : List Aggregate) (zones : List String) :
    Finset String :=
  (aggregates.flatMap (fun ag =>
    match assocLookup ag.metadata "availability_zone" with
    | some z => if z ∈ zones then ag.hosts else []
    | none => [])).toFinset

/-! ## `populate_instances_details`

The identity provider (keystone) is modelled by the only data of its
answers the function observes: the role-assignment user-id list per
project.  `keystone.projects.get(t)` and `keystone.users.get(u)` return
opaque service objects which the code only stores and aggregates; in the
model a project object is a `ProjObj` allocated in a growing store (so that
reference identity = store index) and a user object is represented by its
id.  Every keystone call is recorded in a trace so the caching claims can
be stated as call counts. -/

/-- An instance record as the enrichment pass reads it. -/
structure Instance where
  id : String
  tenant_id : String
deriving DecidableEq, Repr

/-- The identity-provider collaborator: user ids listed by
`keystone.role_assignments.list(project=t)`, in listing order. -/
structure Keystone where
  role_assignments : String → List String

/-- One keystone API call. -/
inductive KsCall where
  | projGet (tenant : String)
  | roleList (tenant : String)
  | userGet (uid : String)
deriving DecidableEq, Repr

/-- A project object as `populate_instances_details` decorates it:
the keystone project for `tenantId`, with the mutable `servers` list
(indices of input instances, in append order) and the `users` set
(ids of the users with a role assignment on the project). -/
structure ProjObj where
  tenantId : String
  servers : List Nat
  users : Finset String
deriving DecidableEq

/-- An annotated server as appended to the returned `servers` list:
the input position `idx` (object identity of the instance), the instance
record, the store index of the attached `project` object, and the attached
`users` set. -/
structure Annot where
  idx : Nat
  inst : Instance
  project : Nat
  users : Finset String
deriving DecidableEq

/-- The state of one enrichment pass: the keys of the `users` dict in
insertion order, the `projects` dict as an assoc list mapping tenant id to
the store index of its project object, the store of allocated project
objects, the output `servers` list, and the keystone call trace. -/
structure EnrichState where
  users : List String
  projects : List (String × Nat)
  store : List ProjObj
  out : List Annot
  trace : List KsCall
deriving DecidableEq

/-- The inner role-assignment loop: for each assignment's user id in order,
call `keystone.users.get` only if the id is not yet in the `users` dict
(`if assignment.user["id"] not in users: users[...] = keystone.users.get(...)`).
Returns the updated dict keys and trace. -/
def fetchUsers : List String → List String → List KsCall → List String × List KsCall
  | [], seen, tr => (seen, tr)
  | u :: rest, seen, tr =>
    if u ∈ seen then fetchUsers rest seen tr
    else fetchUsers rest (seen ++ [u]) (tr ++ [.userGet u])

/-- `project.servers.append(server)`: append instance index `i` to the
`servers` list of the project object at store index `r`. -/
def appendServer : List ProjObj → Nat → Nat → List ProjObj
  | [], _, _ => []
  | p :: ps, 0, i => { p with servers := p.servers ++ [i] } :: ps
  | p :: ps, r + 1, i => p :: appendServer ps r i

/-- The `users` set of the project object at store index `r`. -/
def projUsers (store : List ProjObj) (r : Nat) : Finset String :=
  (store[r]?.map ProjObj.users).getD ∅

/-- One iteration of the `for server in instances` loop of
`populate_instances_details`, for the instance at input position `i`:

    if server.tenant_id not in projects:
      projects[server.tenant_id] = keystone.projects.get(server.tenant_id)
      projects[server.tenant_id].servers = []
      project_users = []
      for assignment in keystone.role_assignments.list(project=server.tenant_id):
        if assignment.user["id"] not in users:
          users[assignment.user["id"]] = keystone.users.get(assignment.user["id"])
        project_users.append(users[assignment.user["id"]])
      projects[server.tenant_id].users = set(project_users)
    server.project = projects[server.tenant_id]
    server.users = server.project.users
    projects[server.tenant_id].servers.append(server)
    servers.append(server)

On a cache miss a fresh project object is allocated at the end of the
store, its `users` set being the set of user ids of the role assignments
(the cached user objects are in bijection with their ids, so `set(...)` of
the objects is the `Finset` of the ids). -/
def enrichStep (ks : Keystone) (st : EnrichState) (i : Nat) (inst : Instance) :
    EnrichState :=
  let t := inst.tenant_id
  let st1 : EnrichState :=
    match assocLookup st.projects t with
    | some _ => st
    | none =>
      let assigns := ks.role_assignments t
      let su := fetchUsers assigns st.users (st.trace ++ [.projGet t, .roleList t])
      { users := su.1
        projects := st.projects ++ [(t, st.store.length)]
        store := st.store ++ [⟨t, [], assigns.toFinset⟩]
        out := st.out
        trace := su.2 }
  match assocLookup st1.projects t with
  | some r =>
    { st1 with
      store := appendServer st1.store r i
      out := st1.out ++ [⟨i, inst, r, projUsers st1.store r⟩] }
  | none => st1

/-- `populate_instances_details` of `notify.py`: fold the loop body over the
instances in input order, starting from empty `users`/`projects` dicts and
an empty `servers` list.  The whole final state is returned so that the
call trace and cache contents can be inspected; the function's Python
return value is the `out` component. -/
def populate_instances_details (ks : Keystone) (instances : List Instance) :
    EnrichState :=
  instances.enum.foldl (fun st p => enrichStep ks st p.1 p.2) ⟨[], [], [], [], []⟩

/-- Concrete identity provider used to witness the enrichment claims:
every project has the single role-holder `u9`. -/
def ksW : Keystone := ⟨fun _ => ["u9"]⟩

/-- Concrete input used to witness the enrichment claims: two instances of
the same tenant `t`. -/
def instsW : List Instance := [⟨"a", "t"⟩, ⟨"b", "t"⟩]

/-! ## Lemmas about the splitting helpers -/

theorem splitCommasRaw_ne_nil (l : List Char) : splitCommasRaw l ≠ [] := by
  cases l with
  | nil => simp [splitCommasRaw]
  | cons c cs =>
    simp only [splitCommasRaw]
    split
    · simp
    · split <;> simp

theorem splitCommasRaw_of_no_comma {l : List Char} (h : ',' ∉ l) :
    splitCommasRaw l = [l] := by
  induction l with
  | nil => simp [splitCommasRaw]
  | cons c cs ih =>
    have hc : c ≠ ',' := fun hh => h (hh ▸ List.mem_cons_self c cs)
    have hcs : ',' ∉ cs := fun hm => h (List.mem_cons_of_mem _ hm)
    simp only [splitCommasRaw]
    rw [if_neg (fun hand => hc hand.1), ih hcs]

theorem reSplitCommas_of_no_comma {s : String} (h : ',' ∉ s.data) :
    reSplitCommas s = [s] := by
  unfold reSplitCommas
  rw [splitCommasRaw_of_no_comma h]
  rfl

theorem splitOnChar_ne_nil (sep : Char) (l : List Char) : splitOnChar sep l ≠ [] := by
  cases l with
  | nil => simp [splitOnChar]
  | cons c cs =>
    simp only [splitOnChar]
    split
    · simp
    · split <;> simp

theorem sublist_of_mem_splitOnChar {sep : Char} :
    ∀ {l line : List Char}, line ∈ splitOnChar sep l → line.Sublist l := by
  intro l
  induction l with
  | nil =>
    intro line hl
    simp [splitOnChar] at hl
    simp [hl]
  | cons c cs ih =>
    intro line hl
    simp only [splitOnChar] at hl
    by_cases hc : c = sep
    · rw [if_pos hc] at hl
      rcases List.mem_cons.mp hl with rfl | hmem
      · exact List.nil_sublist _
      · exact (ih hmem).cons c
    · rw [if_neg hc] at hl
      rcases hr : splitOnChar sep cs with _ | ⟨p, ps⟩
      · exact absurd hr (splitOnChar_ne_nil sep cs)
      · rw [hr] at hl
        rcases List.mem_cons.mp hl with rfl | hmem
        · exact (ih (hr ▸ List.mem_cons_self p ps)).cons₂ c
        · exact ((ih (hr ▸ List.mem_cons_of_mem p hmem))).cons c

theorem breakOn_of_not_mem {sep : Char} {l : List Char} (h : sep ∉ l) :
    breakOn sep l = none := by
  induction l with
  | nil => rfl
  | cons c cs ih =>
    have hc : c ≠ sep := fun hh => h (hh ▸ List.mem_cons_self c cs)
    have hcs : sep ∉ cs := fun hm => h (List.mem_cons_of_mem _ hm)
    simp [breakOn, hc, ih hcs]

theorem searchBracket_of_no_bracket {s : String} (h : '[' ∉ s.data) :
    searchBracket s = none := by
  unfold searchBracket
  rw [Option.map_eq_none', List.findSome?_eq_none_iff]
  intro line hline
  have hnb : '[' ∉ line :=
    fun hm => h ((sublist_of_mem_splitOnChar hline).mem hm)
  simp [lineMatch, breakOn_of_not_mem hnb]

/-- A literal (comma-free, bracket-free) expression is returned unchanged as
a one-element collection. -/
theorem parse_nodes_literal {s : String} (h1 : ',' ∉ s.data) (h2 : '[' ∉ s.data) :
    parse_nodes s = .ok [s] := by
  unfold parse_nodes
  rw [parseNodesF, reSplitCommas_of_no_comma h1]
  simp only
  rw [searchBracket_of_no_bracket h2]

/-! ## Sufficiency of the recursion fuel of `parseNodesF`

Every recursive call of `parse_nodes` is on a strictly shorter string, so
any fuel exceeding the input length gives the same result; in particular
the fuel instantiated in `parse_nodes` is enough and the `fuelExhausted`
branch is dead code. -/

/-- Total length of a list of pieces. -/
def sumLen (ls : List (List Char)) : Nat := (ls.map List.length).sum

theorem splitCommasRaw_sumLen (l : List Char) :
    sumLen (splitCommasRaw l) + (splitCommasRaw l).length = l.length + 1 := by
  induction l with
  | nil => simp [splitCommasRaw, sumLen]
  | cons c cs ih =>
    simp only [splitCommasRaw]
    split
    · simp only [sumLen, List.map_cons, List.sum_cons, List.length_cons,
        List.length_nil] at ih ⊢
      omega
    · rcases hr : splitCommasRaw cs with _ | ⟨p, ps⟩
      · exact absurd hr (splitCommasRaw_ne_nil cs)
      · rw [hr] at ih
        simp only [sumLen, List.map_cons, List.sum_cons, List.length_cons] at ih ⊢
        omega

theorem length_le_sumLen {p : List Char} {ls : List (List Char)} (h : p ∈ ls) :
    p.length ≤ sumLen ls := by
  induction ls with
  | nil => simp at h
  | cons q qs ih =>
    rcases List.mem_cons.mp h with rfl | hmem
    · simp [sumLen]
    · have := ih hmem
      simp only [sumLen, List.map_cons, List.sum_cons] at this ⊢
      omega

theorem splitOnChar_sumLen (sep : Char) (l : List Char) :
    sumLen (splitOnChar sep l) + (splitOnChar sep l).length = l.length + 1 := by
  induction l with
  | nil => simp [splitOnChar, sumLen]
  | cons c cs ih =>
    simp only [splitOnChar]
    split
    · simp only [sumLen, List.map_cons, List.sum_cons, List.length_cons,
        List.length_nil] at ih ⊢
      omega
    · rcases hr : splitOnChar sep cs with _ | ⟨p, ps⟩
      · exact absurd hr (splitOnChar_ne_nil sep cs)
      · rw [hr] at ih
        simp only [sumLen, List.map_cons, List.sum_cons, List.length_cons] at ih ⊢
        omega

theorem splitCommasRaw_piece_le {l p : List Char} (h : p ∈ splitCommasRaw l) :
    p.length ≤ l.length := by
  have hs := splitCommasRaw_sumLen l
  have hm := length_le_sumLen h
  have hn : (splitCommasRaw l).length ≥ 1 :=
    List.length_pos.mpr (splitCommasRaw_ne_nil l)
  omega

theorem splitCommasRaw_piece_lt {l p : List Char} (h : p ∈ splitCommasRaw l)
    (h2 : 2 ≤ (splitCommasRaw l).length) : p.length < l.length := by
  have hs := splitCommasRaw_sumLen l
  have hm := length_le_sumLen h
  omega

theorem length_dropPySpaces_le (l : List Char) :
    (dropPySpaces l).length ≤ l.length :=
  (List.dropWhile_sublist _).length_le

theorem reSplitCommas_piece_le {s t : String} (h : t ∈ reSplitCommas s) :
    t.length ≤ s.length := by
  unfold reSplitCommas at h
  rcases hr : splitCommasRaw s.data with _ | ⟨p, ps⟩
  · exact absurd hr (splitCommasRaw_ne_nil s.data)
  · rw [hr] at h
    rcases List.mem_cons.mp h with rfl | hmem
    · exact splitCommasRaw_piece_le (hr ▸ List.mem_cons_self p ps)
    · rcases List.mem_map.mp hmem with ⟨q, hq, rfl⟩
      calc (String.mk (dropPySpaces q)).length
          ≤ q.length := length_dropPySpaces_le q
        _ ≤ s.length := splitCommasRaw_piece_le (hr ▸ List.mem_cons_of_mem p hq)

theorem reSplitCommas_length_eq (s : String) :
    (reSplitCommas s).length = (splitCommasRaw s.data).length := by
  unfold reSplitCommas
  rcases hr : splitCommasRaw s.data with _ | ⟨p, ps⟩
  · rfl
  · simp

theorem reSplitCommas_piece_lt {s t : String} (h : t ∈ reSplitCommas s)
    (h2 : 2 ≤ (reSplitCommas s).length) : t.length < s.length := by
  rw [reSplitCommas_length_eq] at h2
  unfold reSplitCommas at h
  rcases hr : splitCommasRaw s.data with _ | ⟨p, ps⟩
  · exact absurd hr (splitCommasRaw_ne_nil s.data)
  · rw [hr] at h h2
    rcases List.mem_cons.mp h with rfl | hmem
    · exact splitCommasRaw_piece_lt (hr ▸ List.mem_cons_self p ps) (hr ▸ h2)
    · rcases List.mem_map.mp hmem with ⟨q, hq, rfl⟩
      calc (String.mk (dropPySpaces q)).length
          ≤ q.length := length_dropPySpaces_le q
        _ < s.length :=
            splitCommasRaw_piece_lt (hr ▸ List.mem_cons_of_mem p hq) (hr ▸ h2)

theorem breakOn_eq_append {sep : Char} :
    ∀ {l a b : List Char}, breakOn sep l = some (a, b) → l = a ++ sep :: b := by
  intro l
  induction l with
  | nil => intro a b h; simp [breakOn] at h
  | cons c cs ih =>
    intro a b h
    simp only [breakOn] at h
    by_cases hc : c = sep
    · rw [if_pos hc] at h
      cases h
      simp [hc]
    · rw [if_neg hc] at h
      rcases ho : breakOn sep cs with _ | ⟨p, q⟩
      · rw [ho] at h; simp at h
      · rw [ho] at h
        simp only [Option.map_some'] at h
        cases h
        simp [ih ho]

theorem lineMatch_eq_append {line pre mid suf : List Char}
    (h : lineMatch line = some (pre, mid, suf)) :
    line = pre ++ '[' :: (mid ++ ']' :: suf) := by
  unfold lineMatch at h
  rcases h1 : breakOn '[' line with _ | ⟨a, rest⟩ <;> rw [h1] at h
  · simp at h
  · simp at h
    obtain ⟨h2, rfl⟩ := h
    rw [breakOn_eq_append h1, breakOn_eq_append h2]

theorem searchBracket_mid_lt {s pre mid suf : String}
    (h : searchBracket s = some (pre, mid, suf)) : mid.length < s.length := by
  unfold searchBracket at h
  rcases hf : (splitOnChar '\n' s.data).findSome? lineMatch with _ | ⟨t⟩
  · rw [hf] at h; simp at h
  · rw [hf] at h
    simp only [Option.map_some', Option.some.injEq, Prod.mk.injEq] at h
    obtain ⟨rfl, rfl, rfl⟩ := h
    obtain ⟨line, hline, hmatch⟩ := List.exists_of_findSome?_eq_some hf
    have hlen : line.length ≤ s.data.length :=
      (sublist_of_mem_splitOnChar hline).length_le
    have heq := @lineMatch_eq_append line t.1 t.2.1 t.2.2 hmatch
    have : line.length = t.1.length + (t.2.1.length + (t.2.2.length + 2)) := by
      rw [heq]; simp; omega
    show t.2.1.length < s.data.length
    omega

theorem mapM_congr_except {α β γ : Type} {f g : α → Except γ β} :
    ∀ {l : List α}, (∀ a ∈ l, f a = g a) → l.mapM f = l.mapM g := by
  intro l
  induction l with
  | nil => intro _; rfl
  | cons x xs ih =>
    intro h
    rw [List.mapM_cons, List.mapM_cons, h x (List.mem_cons_self x xs),
      ih (fun a ha => h a (List.mem_cons_of_mem x ha))]

theorem parseNodesF_fuel_congr :
    ∀ (f g : Nat) (s : String), s.length < f → s.length < g →
      parseNodesF f s = parseNodesF g s := by
  intro f
  induction f with
  | zero => intro g s hf; omega
  | succ f ih =>
    intro g s hf hg
    cases g with
    | zero => omega
    | succ g =>
      rw [parseNodesF, parseNodesF]
      rcases hp : reSplitCommas s with _ | ⟨p, rest⟩
      · simp only [hp]
      · rcases rest with _ | ⟨q, rest⟩
        · -- single piece: recursion only on the bracket group
          rcases hb : searchBracket p with _ | ⟨⟨pre, mid, suf⟩⟩
          · simp only [hp, hb]
          · have hps : p.length ≤ s.length :=
              reSplitCommas_piece_le (hp ▸ List.mem_cons_self p [])
            have hmid : mid.length < s.length :=
              lt_of_lt_of_le (searchBracket_mid_lt hb) hps
            simp only [hp, hb]
            rw [ih g mid (by omega) (by omega)]
        · -- several pieces: recursion on each piece
          have hpieces : ∀ t ∈ reSplitCommas s, t.length < s.length := by
            intro t ht
            exact reSplitCommas_piece_lt ht (by rw [hp]; simp)
          rw [hp] at hpieces
          simp only [hp]
          rw [mapM_congr_except (f := parseNodesF f) (g := parseNodesF g)
            (fun t ht => ih g t (by have := hpieces t ht; omega)
              (by have := hpieces t ht; omega))]

/-- The fuel used by `parse_nodes` is sufficient: any larger bound computes
the same function. -/
theorem parseNodesF_eq_parse_nodes {f : Nat} {s : String} (h : s.length < f) :
    parseNodesF f s = parse_nodes s :=
  parseNodesF_fuel_congr f (s.length + 1) s h (Nat.lt_succ_self _)

/-! ## Lemmas about the enrichment pass -/

theorem assocLookup_append {α : Type} (l₁ l₂ : List (String × α)) (t : String) :
    assocLookup (l₁ ++ l₂) t = (assocLookup l₁ t).or (assocLookup l₂ t) := by
  induction l₁ with
  | nil => simp [assocLookup]
  | cons p rest ih =>
    rcases p with ⟨k, v⟩
    by_cases hk : k = t
    · simp [assocLookup, hk]
    · simp [assocLookup, hk, ih]

theorem assocLookup_single {α : Type} (t t' : String) (v : α) :
    assocLookup [(t, v)] t' = if t = t' then some v else none := by
  simp [assocLookup]

theorem fetchUsers_mem (assigns : List String) :
    ∀ (seen : List String) (tr : List KsCall) (u : String),
      u ∈ (fetchUsers assigns seen tr).1 ↔ u ∈ seen ∨ u ∈ assigns := by
  induction assigns with
  | nil => intro seen tr u; simp [fetchUsers]
  | cons a rest ih =>
    intro seen tr u
    by_cases ha : a ∈ seen
    · rw [fetchUsers, if_pos ha, ih]
      constructor
      · rintro (h | h)
        · exact Or.inl h
        · exact Or.inr (List.mem_cons_of_mem a h)
      · rintro (h | h)
        · exact Or.inl h
        · rcases List.mem_cons.mp h with rfl | h
          · exact Or.inl ha
          · exact Or.inr h
    · rw [fetchUsers, if_neg ha, ih]
      simp only [List.mem_append, List.mem_singleton, List.mem_cons]
      tauto

theorem fetchUsers_count_other (assigns : List String) :
    ∀ (seen : List String) (tr : List KsCall) (c : KsCall),
      (∀ u, c ≠ KsCall.userGet u) →
      ((fetchUsers assigns seen tr).2.count c = tr.count c) := by
  induction assigns with
  | nil => intro seen tr c _; rfl
  | cons a rest ih =>
    intro seen tr c hc
    by_cases ha : a ∈ seen
    · rw [fetchUsers, if_pos ha, ih _ _ _ hc]
    · rw [fetchUsers, if_neg ha, ih _ _ _ hc, List.count_append]
      have : (KsCall.userGet a == c) = false := by
        rcases c <;> simp_all [KsCall.userGet.injEq]
      simp [List.count_cons, this]

theorem fetchUsers_count_userGet (assigns : List String) :
    ∀ (seen : List String) (tr : List KsCall),
      (∀ u, tr.count (KsCall.userGet u) = if u ∈ seen then 1 else 0) →
      ∀ u, (fetchUsers assigns seen tr).2.count (KsCall.userGet u)
        = if u ∈ (fetchUsers assigns seen tr).1 then 1 else 0 := by
  induction assigns with
  | nil => intro seen tr h u; exact h u
  | cons a rest ih =>
    intro seen tr h u
    by_cases ha : a ∈ seen
    · rw [fetchUsers, if_pos ha]
      exact ih _ _ h u
    · rw [fetchUsers, if_neg ha]
      apply ih
      intro v
      rw [List.count_append, h v]
      by_cases hv : v = a
      · subst hv
        simp [List.count_cons, ha]
      · have : (KsCall.userGet a == KsCall.userGet v) = false := by
          simp only [beq_eq_false_iff_ne, ne_eq, KsCall.userGet.injEq]
          exact fun hh => hv hh.symm
        simp [List.count_cons, this, List.mem_append, hv]

theorem appendServer_append_length (store : List ProjObj) (po : ProjObj) (i : Nat) :
    appendServer (store ++ [po]) store.length i
      = store ++ [{ po with servers := po.servers ++ [i] }] := by
  induction store with
  | nil => rfl
  | cons q qs ih => simpa [appendServer] using ih

theorem appendServer_getElem? (store : List ProjObj) :
    ∀ (r i j : Nat),
      (appendServer store r i)[j]? =
        if j = r then
          store[j]?.map (fun po => { po with servers := po.servers ++ [i] })
        else store[j]? := by
  induction store with
  | nil =>
    intro r i j
    simp [appendServer]
  | cons p ps ih =>
    intro r i j
    rcases r with _ | r
    · rcases j with _ | j
      · simp [appendServer]
      · simp [appendServer]
    · rcases j with _ | j
      · simp [appendServer]
      · simp only [appendServer, List.getElem?_cons_succ, ih r i j,
          Nat.succ.injEq]

theorem projUsers_append_self (store : List ProjObj) (po : ProjObj) :
    projUsers (store ++ [po]) store.length = po.users := by
  unfold projUsers
  rw [List.getElem?_append_right (Nat.le_refl _)]
  simp

/-- The loop body when the instance's tenant is already cached: only the
project's `servers` list and the output grow. -/
theorem enrichStep_hit {ks : Keystone} {st : EnrichState} {i : Nat}
    {inst : Instance} {r : Nat}
    (h1 : assocLookup st.projects inst.tenant_id = some r) :
    enrichStep ks st i inst =
      { st with
        store := appendServer st.store r i
        out := st.out ++ [⟨i, inst, r, projUsers st.store r⟩] } := by
  unfold enrichStep
  simp only [h1]

/-- The loop body on a cache miss: the project and all not-yet-seen users of
its role assignments are fetched, a fresh project object is allocated at the
end of the store, and the instance is attached to it. -/
theorem enrichStep_miss {ks : Keystone} {st : EnrichState} {i : Nat}
    {inst : Instance}
    (h1 : assocLookup st.projects inst.tenant_id = none) :
    enrichStep ks st i inst =
      { users := (fetchUsers (ks.role_assignments inst.tenant_id) st.users
          (st.trace ++ [.projGet inst.tenant_id, .roleList inst.tenant_id])).1
        projects := st.projects ++ [(inst.tenant_id, st.store.length)]
        store := st.store ++
          [⟨inst.tenant_id, [i], (ks.role_assignments inst.tenant_id).toFinset⟩]
        out := st.out ++
          [⟨i, inst, st.store.length, (ks.role_assignments inst.tenant_id).toFinset⟩]
        trace := (fetchUsers (ks.role_assignments inst.tenant_id) st.users
          (st.trace ++ [.projGet inst.tenant_id, .roleList inst.tenant_id])).2 } := by
  unfold enrichStep
  simp only [h1]
  rw [assocLookup_append, h1, Option.none_or, assocLookup_single, if_pos rfl]
  simp only [appendServer_append_length, projUsers_append_self, List.nil_append]

theorem count_pair_projGet (t t' : String) :
    ([KsCall.projGet t, KsCall.roleList t] : List KsCall).count
      (KsCall.projGet t') = if t' = t then 1 else 0 := by
  by_cases h : t' = t <;> simp [List.count_cons, h]

theorem count_pair_roleList (t t' : String) :
    ([KsCall.projGet t, KsCall.roleList t] : List KsCall).count
      (KsCall.roleList t') = if t' = t then 1 else 0 := by
  by_cases h : t' = t <;> simp [List.count_cons, h]

theorem count_pair_userGet (t : String) (u : String) :
    ([KsCall.projGet t, KsCall.roleList t] : List KsCall).count
      (KsCall.userGet u) = 0 := by
  simp [List.count_cons]

/-- The invariant the enrichment loop maintains: each keystone call kind is
counted in the trace exactly by the cache that guards it, the `users` dict
holds exactly the users of the visited projects' role assignments, every
cached tenant points at a store object carrying its tenant id and user set,
and every emitted server is attached to its tenant's project object and
recorded in that object's `servers`. -/
structure Inv (ks : Keystone) (st : EnrichState) : Prop where
  projGet_count : ∀ t, st.trace.count (KsCall.projGet t)
    = if (assocLookup st.projects t).isSome then 1 else 0
  roleList_count : ∀ t, st.trace.count (KsCall.roleList t)
    = if (assocLookup st.projects t).isSome then 1 else 0
  userGet_count : ∀ u, st.trace.count (KsCall.userGet u)
    = if u ∈ st.users then 1 else 0
  users_char : ∀ u, u ∈ st.users ↔
    ∃ t, (assocLookup st.projects t).isSome ∧ u ∈ ks.role_assignments t
  proj_store : ∀ t r, assocLookup st.projects t = some r →
    ∃ po, st.store[r]? = some po ∧ po.tenantId = t ∧
      po.users = (ks.role_assignments t).toFinset
  out_inv : ∀ a ∈ st.out,
    assocLookup st.projects a.inst.tenant_id = some a.project ∧
    ∃ po, st.store[a.project]? = some po ∧ a.idx ∈ po.servers ∧
      a.users = po.users

theorem inv_init (ks : Keystone) : Inv ks ⟨[], [], [], [], []⟩ := by
  constructor <;> simp [assocLookup]

theorem inv_step {ks : Keystone} {st : EnrichState} (inv : Inv ks st)
    (i : Nat) (inst : Instance) : Inv ks (enrichStep ks st i inst) := by
  rcases h1 : assocLookup st.projects inst.tenant_id with _ | r
  · -- cache miss
    rw [enrichStep_miss h1]
    constructor
    · intro t'
      show (fetchUsers _ _ _).2.count _ = _
      rw [fetchUsers_count_other _ _ _ _ (fun u => by simp),
        List.count_append, inv.projGet_count t', count_pair_projGet,
        assocLookup_append, assocLookup_single]
      by_cases ht : inst.tenant_id = t'
      · subst ht
        rw [h1]
        simp
      · rw [if_neg ht, Option.or_none]
        have ht' : ¬t' = inst.tenant_id := fun hh => ht hh.symm
        simp [ht']
    · intro t'
      show (fetchUsers _ _ _).2.count _ = _
      rw [fetchUsers_count_other _ _ _ _ (fun u => by simp),
        List.count_append, inv.roleList_count t', count_pair_roleList,
        assocLookup_append, assocLookup_single]
      by_cases ht : inst.tenant_id = t'
      · subst ht
        rw [h1]
        simp
      · rw [if_neg ht, Option.or_none]
        have ht' : ¬t' = inst.tenant_id := fun hh => ht hh.symm
        simp [ht']
    · intro u
      show (fetchUsers _ _ _).2.count _ = _
      apply fetchUsers_count_userGet
      intro v
      rw [List.count_append, inv.userGet_count v, count_pair_userGet,
        Nat.add_zero]
    · intro u
      show u ∈ (fetchUsers _ _ _).1 ↔ _
      rw [fetchUsers_mem]
      constructor
      · rintro (hu | hu)
        · rcases (inv.users_char u).mp hu with ⟨t', hsome, hra⟩
          refine ⟨t', ?_, hra⟩
          rw [assocLookup_append]
          rcases hlk : assocLookup st.projects t' with _ | v
          · rw [hlk] at hsome
            simp at hsome
          · rfl
        · refine ⟨inst.tenant_id, ?_, hu⟩
          rw [assocLookup_append, h1, Option.none_or, assocLookup_single,
            if_pos rfl]
          rfl
      · rintro ⟨t', hsome, hra⟩
        rw [assocLookup_append, assocLookup_single] at hsome
        by_cases ht : inst.tenant_id = t'
        · subst ht
          exact Or.inr hra
        · rw [if_neg ht, Option.or_none] at hsome
          exact Or.inl ((inv.users_char u).mpr ⟨t', hsome, hra⟩)
    · intro t' r' hlk
      show ∃ po, (st.store ++ [_])[r']? = some po ∧ _
      rw [assocLookup_append, assocLookup_single] at hlk
      rcases hold : assocLookup st.projects t' with _ | r''
      · rw [hold, Option.none_or] at hlk
        by_cases ht : inst.tenant_id = t'
        · rw [if_pos ht] at hlk
          cases hlk
          refine ⟨⟨inst.tenant_id, [i],
            (ks.role_assignments inst.tenant_id).toFinset⟩, ?_, ht, by rw [ht]⟩
          rw [List.getElem?_append_right (Nat.le_refl _)]
          simp
        · rw [if_neg ht] at hlk
          cases hlk
      · rw [hold] at hlk
        have hrr : r'' = r' := by
          have : (Option.some r'').or _ = some r' := hlk
          simpa using this
        subst hrr
        obtain ⟨po, hpo, htid, hus⟩ := inv.proj_store t' r'' hold
        have hlt : r'' < st.store.length := (List.getElem?_eq_some.mp hpo).1
        refine ⟨po, ?_, htid, hus⟩
        rw [List.getElem?_append, if_pos hlt]
        exact hpo
    · intro a ha
      rcases List.mem_append.mp ha with ha | ha
      · obtain ⟨hlk, po, hpo, hidx, hus⟩ := inv.out_inv a ha
        have hlt : a.project < st.store.length := (List.getElem?_eq_some.mp hpo).1
        refine ⟨?_, po, ?_, hidx, hus⟩
        · rw [assocLookup_append, hlk]
          rfl
        · rw [List.getElem?_append, if_pos hlt]
          exact hpo
      · rw [List.mem_singleton.mp ha]
        refine ⟨?_, ⟨inst.tenant_id, [i],
          (ks.role_assignments inst.tenant_id).toFinset⟩, ?_, ?_, rfl⟩
        · show assocLookup (st.projects ++ _) inst.tenant_id = _
          rw [assocLookup_append, h1, Option.none_or, assocLookup_single,
            if_pos rfl]
        · show (st.store ++ _)[st.store.length]? = _
          rw [List.getElem?_append_right (Nat.le_refl _)]
          simp
        · simp
  · -- cache hit
    rw [enrichStep_hit h1]
    obtain ⟨po, hpo, htid, hus⟩ := inv.proj_store inst.tenant_id r h1
    constructor
    · exact inv.projGet_count
    · exact inv.roleList_count
    · exact inv.userGet_count
    · exact inv.users_char
    · intro t' r' hlk
      obtain ⟨po', hpo', htid', hus'⟩ := inv.proj_store t' r' hlk
      show ∃ po'', (appendServer st.store r i)[r']? = some po'' ∧ _
      rw [appendServer_getElem?]
      by_cases hr : r' = r
      · rw [if_pos hr, hpo']
        exact ⟨{ po' with servers := po'.servers ++ [i] }, rfl, htid', hus'⟩
      · rw [if_neg hr]
        exact ⟨po', hpo', htid', hus'⟩
    · intro a ha
      rcases List.mem_append.mp ha with ha | ha
      · obtain ⟨hlk, po', hpo', hidx, hus'⟩ := inv.out_inv a ha
        refine ⟨hlk, ?_⟩
        rw [appendServer_getElem?]
        by_cases hr : a.project = r
        · rw [if_pos hr, hr, hpo]
          refine ⟨{ po with servers := po.servers ++ [i] }, rfl, ?_, ?_⟩
          · have : po' = po := by
              rw [hr] at hpo'
              rw [hpo'] at hpo
              exact (Option.some.injEq _ _ ▸ hpo).symm ▸ rfl
            exact List.mem_append_left _ (this ▸ hidx)
          · have : po' = po := by
              rw [hr] at hpo'
              exact Option.some.inj (hpo'.symm.trans hpo)
            rw [hus', this]
        · rw [if_neg hr]
          exact ⟨po', hpo', hidx, hus'⟩
      · rw [List.mem_singleton.mp ha]
        refine ⟨h1, ?_⟩
        show ∃ po'', (appendServer st.store r i)[r]? = some po'' ∧
          i ∈ po''.servers ∧ projUsers st.store r = po''.users
        rw [appendServer_getElem?, if_pos rfl, hpo]
        refine ⟨{ po with servers := po.servers ++ [i] }, rfl, by simp, ?_⟩
        unfold projUsers
        rw [hpo]
        rfl

theorem inv_foldl {ks : Keystone} :
    ∀ (l : List (Nat × Instance)) (st : EnrichState), Inv ks st →
      Inv ks (l.foldl (fun st p => enrichStep ks st p.1 p.2) st) := by
  intro l
  induction l with
  | nil => intro st h; exact h
  | cons p rest ih =>
    intro st h
    exact ih _ (inv_step h p.1 p.2)

theorem inv_populate (ks : Keystone) (instances : List Instance) :
    Inv ks (populate_instances_details ks instances) :=
  inv_foldl _ _ (inv_init ks)

theorem isSome_or_iff {α : Type} (a b : Option α) :
    ((a.or b).isSome = true) ↔ (a.isSome = true ∨ b.isSome = true) := by
  rcases a <;> rcases b <;> simp [Option.or]

theorem enrichStep_lookup_isSome (ks : Keystone) (st : EnrichState)
    (i : Nat) (inst : Instance) (t : String) :
    ((assocLookup (enrichStep ks st i inst).projects t).isSome = true)
      ↔ ((assocLookup st.projects t).isSome = true ∨ inst.tenant_id = t) := by
  rcases h1 : assocLookup st.projects inst.tenant_id with _ | r
  · rw [enrichStep_miss h1]
    show (assocLookup (st.projects ++ _) t).isSome = true ↔ _
    rw [assocLookup_append, isSome_or_iff, assocLookup_single]
    by_cases ht : inst.tenant_id = t
    · simp [ht]
    · simp [ht]
  · rw [enrichStep_hit h1]
    show ((assocLookup st.projects t).isSome = true) ↔ _
    constructor
    · exact Or.inl
    · rintro (h | rfl)
      · exact h
      · rw [h1]
        rfl

theorem foldl_lookup_isSome (ks : Keystone) :
    ∀ (l : List (Nat × Instance)) (st : EnrichState) (t : String),
      ((assocLookup (l.foldl (fun st p => enrichStep ks st p.1 p.2)
          st).projects t).isSome = true)
        ↔ ((assocLookup st.projects t).isSome = true
            ∨ ∃ p ∈ l, p.2.tenant_id = t) := by
  intro l
  induction l with
  | nil => intro st t; simp
  | cons p rest ih =>
    intro st t
    rw [List.foldl_cons, ih, enrichStep_lookup_isSome]
    simp only [List.mem_cons]
    constructor
    · rintro ((h | h) | ⟨q, hq, hqt⟩)
      · exact Or.inl h
      · exact Or.inr ⟨p, Or.inl rfl, h⟩
      · exact Or.inr ⟨q, Or.inr hq, hqt⟩
    · rintro (h | ⟨q, hq | hq, hqt⟩)
      · exact Or.inl (Or.inl h)
      · exact Or.inl (Or.inr (hq ▸ hqt))
      · exact Or.inr ⟨q, hq, hqt⟩

theorem populate_lookup_isSome (ks : Keystone) (instances : List Instance)
    (t : String) :
    ((assocLookup (populate_instances_details ks instances).projects
        t).isSome = true)
      ↔ ∃ inst ∈ instances, inst.tenant_id = t := by
  unfold populate_instances_details
  rw [foldl_lookup_isSome]
  constructor
  · rintro (h | ⟨p, hp, ht⟩)
    · simp [assocLookup] at h
    · refine ⟨p.2, ?_, ht⟩
      rw [← List.enum_map_snd instances]
      exact List.mem_map_of_mem _ hp
  · rintro ⟨inst, hi, ht⟩
    right
    rw [← List.enum_map_snd instances] at hi
    rcases List.mem_map.mp hi with ⟨p, hp, rfl⟩
    exact ⟨p, hp, ht⟩

theorem enrichStep_out (ks : Keystone) (st : EnrichState) (i : Nat)
    (inst : Instance) :
    (enrichStep ks st i inst).out.map (fun a => (a.idx, a.inst))
      = st.out.map (fun a => (a.idx, a.inst)) ++ [(i, inst)] := by
  rcases h1 : assocLookup st.projects inst.tenant_id with _ | r
  · rw [enrichStep_miss h1]
    simp
  · rw [enrichStep_hit h1]
    simp

theorem foldl_out (ks : Keystone) :
    ∀ (l : List (Nat × Instance)) (st : EnrichState),
      ((l.foldl (fun st p => enrichStep ks st p.1 p.2) st).out).map
          (fun a => (a.idx, a.inst))
        = st.out.map (fun a => (a.idx, a.inst)) ++ l := by
  intro l
  induction l with
  | nil => intro st; simp
  | cons p rest ih =>
    intro st
    rw [List.foldl_cons, ih, enrichStep_out]
    simp

theorem populate_out (ks : Keystone) (instances : List Instance) :
    (populate_instances_details ks instances).out.map
        (fun a => (a.idx, a.inst))
      = instances.enum := by
  unfold populate_instances_details
  rw [foldl_out]
  simp

theorem populate_out_length (ks : Keystone) (instances : List Instance) :
    (populate_instances_details ks instances).out.length
      = instances.length := by
  have h := congrArg List.length (populate_out ks instances)
  simpa [List.enum_length] using h

theorem populate_out_getElem (ks : Keystone) (instances : List Instance)
    (i : Nat) (hi : i < instances.length) :
    ∃ ai, (populate_instances_details ks instances).out[i]? = some ai ∧
      ai.idx = i ∧ ai.inst = instances.get ⟨i, hi⟩ := by
  have hlen := populate_out_length ks instances
  refine ⟨(populate_instances_details ks instances).out.get ⟨i, by omega⟩,
    List.getElem?_eq_getElem (by omega), ?_⟩
  have h2 := congrArg (fun l => l[i]?) (populate_out ks instances)
  simp only [List.getElem?_map, List.getElem?_enum] at h2
  rw [List.getElem?_eq_getElem (show i < (populate_instances_details ks
      instances).out.length by omega),
    List.getElem?_eq_getElem hi] at h2
  simp only [Option.map_some', Option.some.injEq, Prod.mk.injEq] at h2
  exact ⟨h2.1, h2.2⟩

theorem mapM_except_error {α β γ : Type} {f : α → Except γ β} :
    ∀ {l : List α} {e : γ}, l.mapM f = .error e → ∃ a ∈ l, f a = .error e := by
  intro l
  induction l with
  | nil =>
    intro e h
    rw [List.mapM_nil] at h
    simp [pure, Except.pure] at h
  | cons x xs ih =>
    intro e h
    rw [List.mapM_cons] at h
    rcases hx : f x with ex | b
    · rw [hx] at h
      simp only [bind, Except.bind] at h
      cases h
      exact ⟨x, List.mem_cons_self x xs, hx⟩
    · rw [hx] at h
      rcases hxs : xs.mapM f with exs | bs
      · rw [hxs] at h
        simp only [bind, Except.bind] at h
        cases h
        obtain ⟨a, ha, hfa⟩ := ih hxs
        exact ⟨a, List.mem_cons_of_mem x ha, hfa⟩
      · rw [hxs] at h
        simp [bind, Except.bind, pure, Except.pure] at h

theorem parse_dash_ne_fuel (a : String) :
    parse_dash a ≠ .error PyErr.fuelExhausted := by
  unfold parse_dash
  split
  · split <;> simp
  · simp

/-- The `fuelExhausted` branch of `parseNodesF` is dead code: `parse_nodes`
never produces it, on any input. -/
theorem parse_nodes_ne_fuel :
    ∀ (n : Nat) (s : String), s.length ≤ n →
      parse_nodes s ≠ .error PyErr.fuelExhausted := by
  intro n
  induction n with
  | zero =>
    intro s hs
    have hdata : s.data = [] := List.length_eq_zero.mp (Nat.le_zero.mp hs)
    have hempty : s = "" := by
      cases s
      simp at hdata
      rw [hdata]
    rw [hempty]
    decide
  | succ n ih =>
    intro s hs
    unfold parse_nodes
    rw [parseNodesF]
    rcases hp : reSplitCommas s with _ | ⟨p, rest⟩
    · simp [hp]
    · rcases rest with _ | ⟨q, rest⟩
      · rcases hb : searchBracket p with _ | ⟨⟨pre, mid, suf⟩⟩
        · simp [hp, hb]
        · have hps : p.length ≤ s.length :=
            reSplitCommas_piece_le (hp ▸ List.mem_cons_self p [])
          have hmid : mid.length < s.length :=
            lt_of_lt_of_le (searchBracket_mid_lt hb) hps
          simp only [hp, hb]
          rw [parseNodesF_eq_parse_nodes hmid]
          rcases hrec : parse_nodes mid with e | inner
          · simp only [hrec]
            intro hcon
            cases hcon
            exact ih mid (by omega) hrec
          · simp only [hrec]
            rcases hdash : inner.mapM parse_dash with e | ranges
            · simp only [hdash]
              intro hcon
              cases hcon
              obtain ⟨a, _, hfa⟩ := mapM_except_error hdash
              exact parse_dash_ne_fuel a hfa
            · simp only [hdash]
              simp
      · have hpieces : ∀ t ∈ p :: q :: rest, t.length < s.length := by
          intro t htmem
          exact reSplitCommas_piece_lt (hp ▸ htmem) (by rw [hp]; simp)
        simp only [hp]
        intro hcon
        rcases hmap : (p :: q :: rest).mapM (parseNodesF s.length)
          with e | ls
        · rw [hmap] at hcon
          simp only [Except.map] at hcon
          cases hcon
          obtain ⟨t, htmem, hft⟩ := mapM_except_error hmap
          have hlt := hpieces t htmem
          rw [parseNodesF_eq_parse_nodes hlt] at hft
          exact ih t (by omega) hft
        · rw [hmap] at hcon
          simp [Except.map] at hcon

/-! ## Claims about the host-range expander -/

/-- C8: a dash piece `lo-hi` inside brackets denotes an integer range
inclusive at both ends: expanding `qh2-rcc[10-12]` returns exactly the set
of hostnames `qh2-rcc10`, `qh2-rcc11` and `qh2-rcc12`. -/
theorem claim_C8_dash_range_inclusive :
    expand "qh2-rcc[10-12]" =
      .ok ({"qh2-rcc10", "qh2-rcc11", "qh2-rcc12"} : Finset String) := by
  decide

/-- C1, counterexample: expanding `qh2-rcc[01-03,07]` does NOT return the
set claimed by the spec — the single bracket piece `07` is not interpreted
numerically, so `qh2-rcc7` is not among the produced hostnames. -/
theorem claim_C1_counterexample :
    expand "qh2-rcc[01-03,07]" ≠
      .ok ({"qh2-rcc1", "qh2-rcc2", "qh2-rcc3", "qh2-rcc7"} : Finset String) := by
  decide

/-- C1, amended: expanding `qh2-rcc[01-03,07]` returns exactly the set of
hostnames `qh2-rcc1`, `qh2-rcc2`, `qh2-rcc3` and `qh2-rcc07`: a `lo-hi`
dash piece is interpreted numerically (its zero-padding is lost through
`int`), but a single-value piece is concatenated verbatim, preserving its
zero-padding. -/
theorem claim_C1_amended :
    expand "qh2-rcc[01-03,07]" =
      .ok ({"qh2-rcc1", "qh2-rcc2", "qh2-rcc3", "qh2-rcc07"} : Finset String) := by
  decide

/-- C2, counterexample: expanding the malformed-bracket expression
`qh2-rcc[10-` does not raise any error — there is no `ParseError` anywhere
in the program — and instead returns normally, with the whole malformed
expression as the single produced hostname. -/
theorem claim_C2_counterexample :
    parse_nodes "qh2-rcc[10-" = .ok ["qh2-rcc[10-"] := by
  decide

/-- C2, amended: expansion of an empty or unclosed-bracket host expression
does not fail: the expression is treated as a literal hostname and returned
as the singleton set containing itself (the code defines or raises no
`ParseError`). -/
theorem claim_C2_amended :
    expand "qh2-rcc[10-" = .ok ({"qh2-rcc[10-"} : Finset String) ∧
      expand "" = .ok ({""} : Finset String) := by
  constructor <;> decide

/-- C7: for every literal hostname `h` containing no bracket, comma or
dash, `expand h` is the singleton set containing `h` itself, and
consequently expansion is idempotent on already-expanded hostnames:
expanding any element of `parse_nodes h` gives the same result again. -/
theorem claim_C7_literal_idempotent (h : String)
    (hb1 : '[' ∉ h.data) (_hb2 : ']' ∉ h.data)
    (hc : ',' ∉ h.data) (_hd : '-' ∉ h.data) :
    expand h = .ok ({h} : Finset String) ∧
      ∀ g, g ∈ (parse_nodes h).toOption.getD [] → expand g = expand h := by
  have hp := parse_nodes_literal hc hb1
  constructor
  · unfold expand
    rw [hp]
    rfl
  · intro g hg
    rw [hp] at hg
    simp [Except.toOption] at hg
    rw [hg]

/-- C7, witness: the theorem applied to the concrete literal hostname
`qh2rcc5`. -/
theorem claim_C7_witness :
    ('[' ∉ "qh2rcc5".data) ∧ (']' ∉ "qh2rcc5".data) ∧
      (',' ∉ "qh2rcc5".data) ∧ ('-' ∉ "qh2rcc5".data) ∧
      (expand "qh2rcc5" = .ok ({"qh2rcc5"} : Finset String) ∧
        ∀ g, g ∈ (parse_nodes "qh2rcc5").toOption.getD [] →
          expand g = expand "qh2rcc5") :=
  ⟨by decide, by decide, by decide, by decide,
    claim_C7_literal_idempotent "qh2rcc5" (by decide) (by decide) (by decide)
      (by decide)⟩

/-! ## Claims about the enrichment pass -/

/-- C3: during one enrichment pass, the identity provider's project lookup
and its role-assignment listing are each invoked at most once per distinct
tenant id — exactly once for a tenant that occurs among the instances and
never otherwise — no matter how many instances share that tenant. -/
theorem claim_C3_project_lookup_once (ks : Keystone)
    (instances : List Instance) (t : String) :
    ((populate_instances_details ks instances).trace.count (KsCall.projGet t)
      = if ∃ inst ∈ instances, inst.tenant_id = t then 1 else 0) ∧
    ((populate_instances_details ks instances).trace.count (KsCall.roleList t)
      = if ∃ inst ∈ instances, inst.tenant_id = t then 1 else 0) := by
  have inv := inv_populate ks instances
  have hiff := populate_lookup_isSome ks instances t
  constructor
  · rw [inv.projGet_count t]
    exact if_congr hiff rfl rfl
  · rw [inv.roleList_count t]
    exact if_congr hiff rfl rfl

/-- C4: during one enrichment pass, the identity provider's user lookup is
invoked exactly once per distinct user id that appears in the role
assignments of a visited project (one whose tenant occurs among the
instances) and never otherwise, even when that user id appears in role
assignments of several distinct visited projects. -/
theorem claim_C4_user_lookup_once (ks : Keystone)
    (instances : List Instance) (u : String) :
    (populate_instances_details ks instances).trace.count (KsCall.userGet u)
      = if ∃ inst ∈ instances, u ∈ ks.role_assignments inst.tenant_id
        then 1 else 0 := by
  have inv := inv_populate ks instances
  rw [inv.userGet_count u]
  refine if_congr ?_ rfl rfl
  rw [inv.users_char u]
  constructor
  · rintro ⟨t, hsome, hra⟩
    rcases (populate_lookup_isSome ks instances t).mp hsome with ⟨inst, hi, ht⟩
    exact ⟨inst, hi, ht ▸ hra⟩
  · rintro ⟨inst, hi, hra⟩
    exact ⟨inst.tenant_id,
      (populate_lookup_isSome ks instances _).mpr ⟨inst, hi, rfl⟩, hra⟩

/-- C5: any two input instances with the same tenant id end up attached to
the very same project object — the same reference into the store of
allocated project objects — and that object's `servers` list records both
instances (by their input positions). -/
theorem claim_C5_shared_project (ks : Keystone) (instances : List Instance)
    (i j : Nat) (hi : i < instances.length) (hj : j < instances.length)
    (ht : (instances.get ⟨i, hi⟩).tenant_id
      = (instances.get ⟨j, hj⟩).tenant_id) :
    ∃ ai aj po,
      (populate_instances_details ks instances).out[i]? = some ai ∧
      (populate_instances_details ks instances).out[j]? = some aj ∧
      ai.idx = i ∧ aj.idx = j ∧
      ai.inst = instances.get ⟨i, hi⟩ ∧ aj.inst = instances.get ⟨j, hj⟩ ∧
      ai.project = aj.project ∧
      (populate_instances_details ks instances).store[ai.project]?
        = some po ∧
      i ∈ po.servers ∧ j ∈ po.servers ∧
      ai.users = po.users ∧ aj.users = po.users := by
  obtain ⟨ai, hai, haidx, haiinst⟩ := populate_out_getElem ks instances i hi
  obtain ⟨aj, haj, hajidx, hajinst⟩ := populate_out_getElem ks instances j hj
  have hmemi : ai ∈ (populate_instances_details ks instances).out := by
    obtain ⟨hlt, heq⟩ := List.getElem?_eq_some.mp hai
    exact heq ▸ List.getElem_mem hlt
  have hmemj : aj ∈ (populate_instances_details ks instances).out := by
    obtain ⟨hlt, heq⟩ := List.getElem?_eq_some.mp haj
    exact heq ▸ List.getElem_mem hlt
  obtain ⟨hlki, poi, hpoi, hidxi, husi⟩ :=
    (inv_populate ks instances).out_inv ai hmemi
  obtain ⟨hlkj, poj, hpoj, hidxj, husj⟩ :=
    (inv_populate ks instances).out_inv aj hmemj
  have hproj : ai.project = aj.project := by
    have hsame : ai.inst.tenant_id = aj.inst.tenant_id := by
      rw [haiinst, hajinst, ht]
    rw [hsame, hlkj] at hlki
    exact (Option.some.inj hlki).symm
  have hpoeq : poj = poi := by
    rw [← hproj] at hpoj
    rw [hpoj] at hpoi
    exact Option.some.inj hpoi
  refine ⟨ai, aj, poi, hai, haj, haidx, hajidx, haiinst, hajinst, hproj,
    hpoi, ?_, ?_, husi, ?_⟩
  · exact haidx ▸ hidxi
  · exact hajidx ▸ hpoeq ▸ hidxj
  · rw [husj, hpoeq]

/-- C5, witness: the theorem applied to two concrete instances of the same
tenant. -/
theorem claim_C5_witness :
    ((0 : Nat) < instsW.length) ∧ ((1 : Nat) < instsW.length) ∧
      ((instsW.get ⟨0, by decide⟩).tenant_id
        = (instsW.get ⟨1, by decide⟩).tenant_id) ∧
      (∃ ai aj po,
        (populate_instances_details ksW instsW).out[0]? = some ai ∧
        (populate_instances_details ksW instsW).out[1]? = some aj ∧
        ai.idx = 0 ∧ aj.idx = 1 ∧
        ai.inst = instsW.get ⟨0, by decide⟩ ∧
        aj.inst = instsW.get ⟨1, by decide⟩ ∧
        ai.project = aj.project ∧
        (populate_instances_details ksW instsW).store[ai.project]?
          = some po ∧
        0 ∈ po.servers ∧ 1 ∈ po.servers ∧
        ai.users = po.users ∧ aj.users = po.users) :=
  ⟨by decide, by decide, by decide,
    claim_C5_shared_project ksW instsW 0 1 (by decide) (by decide)
      (by decide)⟩

/-- C6: the enrichment pass returns exactly the instances it was given, in
the original input order — no instance is dropped, duplicated or reordered
— and each returned entry is annotated with the project object of its
tenant and with that project's user set. -/
theorem claim_C6_instances_preserved (ks : Keystone)
    (instances : List Instance) :
    ((populate_instances_details ks instances).out.map (fun a => a.inst)
      = instances) ∧
    ((populate_instances_details ks instances).out.map (fun a => a.idx)
      = List.range instances.length) ∧
    ∀ a ∈ (populate_instances_details ks instances).out,
      assocLookup (populate_instances_details ks instances).projects
          a.inst.tenant_id = some a.project ∧
      ∃ po, (populate_instances_details ks instances).store[a.project]?
          = some po ∧ a.users = po.users := by
  refine ⟨?_, ?_, ?_⟩
  · have h := congrArg (List.map Prod.snd) (populate_out ks instances)
    simpa [List.map_map, Function.comp, List.enum_map_snd] using h
  · have h := congrArg (List.map Prod.fst) (populate_out ks instances)
    simpa [List.map_map, Function.comp, List.enum_map_fst] using h
  · intro a ha
    obtain ⟨hlk, po, hpo, _, hus⟩ := (inv_populate ks instances).out_inv a ha
    exact ⟨hlk, po, hpo, hus⟩

/-! ## Claims about `get_session` and `get_hosts_by_zones` -/

/-- C9 (documenting the code's actual behaviour at the failing input): when
any of the four credential variables is unset or empty, `get_session` fails
immediately — before constructing the auth plugin or session, hence before
any contact with an external service — but the exception that escapes is a
`NameError` for the undefined name `AuthenticationError`, because the class
the `raise` statement names is defined nowhere in the program. -/
theorem claim_C9_missing_credentials (env : Env)
    (h : pyTruthy env.OS_AUTH_URL = false ∨ pyTruthy env.OS_USERNAME = false
      ∨ pyTruthy env.OS_PASSWORD = false
      ∨ pyTruthy env.OS_TENANT_NAME = false) :
    get_session env = .error (.nameError "AuthenticationError") := by
  unfold get_session
  rcases h with h | h | h | h <;> simp [h]

/-- C9, witness: the theorem applied to an environment in which only
`OS_AUTH_URL` is missing. -/
theorem claim_C9_witness :
    (pyTruthy (Env.mk none (some "admin") (some "pw")
      (some "proj")).OS_AUTH_URL = false) ∧
      get_session (Env.mk none (some "admin") (some "pw") (some "proj"))
        = .error (.nameError "AuthenticationError") :=
  ⟨by decide, claim_C9_missing_credentials _ (Or.inl (by decide))⟩

/-- C10: resolving hosts by availability zone skips — silently, with no
error and no contribution — every aggregate whose metadata lacks the
`availability_zone` key, and returns exactly the union of the hosts of the
aggregates whose `availability_zone` metadata value is among the requested
zones. -/
theorem claim_C10_hosts_by_zones (aggregates : List Aggregate)
    (zones : List String) (h : String) :
    h ∈ get_hosts_by_zones aggregates zones ↔
      ∃ ag ∈ aggregates, h ∈ ag.hosts ∧
        ∃ z, assocLookup ag.metadata "availability_zone" = some z ∧
          z ∈ zones := by
  unfold get_hosts_by_zones
  rw [List.mem_toFinset, List.mem_flatMap]
  constructor
  · rintro ⟨ag, hag, hmem⟩
    rcases hz : assocLookup ag.metadata "availability_zone" with _ | z
    · simp only [hz] at hmem
      simp at hmem
    · simp only [hz] at hmem
      by_cases hzz : z ∈ zones
      · rw [if_pos hzz] at hmem
        exact ⟨ag, hag, hmem, z, hz, hzz⟩
      · rw [if_neg hzz] at hmem
        simp at hmem
  · rintro ⟨ag, hag, hmem, z, hz, hzz⟩
    refine ⟨ag, hag, ?_⟩
    simp only [hz]
    rw [if_pos hzz]
    exact hmem

/-- Sanity check from the spec's test list: a top-level comma list expands
to the union of its pieces. -/
theorem expand_comma_list :
    expand "qh2-rcc5,qh2-rcc6"
      = .ok ({"qh2-rcc5", "qh2-rcc6"} : Finset String) := by
  decide

end Notify
